import Mathlib

set_option allowUnsafeReducibility true
attribute [semireducible] Rat.add Rat.mul Rat.inv Rat.sub Rat.ofScientific

/-!
Verification of the matrix-inverse calculator.

The repository's Python sources contain the GUI layer (`matrix_inverse_gui.py`,
with `_validate_size` and `_ensure_valid_size`) and its unit tests.  The
computational core (Inverter and Verifier) described by the specification is
not present in the sources; following the spec, it is modelled here over exact
rational arithmetic (ℚ stands in for the spec's real numbers), with matrices
as lists of rows as the spec's data model describes.
-/

namespace CalApp

/-- A matrix is an ordered collection of rows, each an ordered sequence of
numbers (modelled exactly over ℚ). -/
abbrev Mat := List (List ℚ)

/-- Modelled from the spec: a raw input cell of the Inverter may hold either a
numeric value or a non-numeric token (the spec requires rejecting non-numeric
tokens during structural validation). -/
inductive Cell where
  | num (x : ℚ)
  | text (s : String)
deriving DecidableEq, Repr

/-- The numeric value of a cell, if it has one. -/
def cellVal : Cell → Option ℚ
  | .num x => some x
  | .text _ => none

/-- Modelled from the spec: the error taxonomy of the Inverter — five
structural sub-kinds plus the numerical singular-matrix failure. -/
inductive InvError where
  | emptyInput
  | raggedRows
  | nonNumericEntry
  | nonSquare
  | sizeOutOfBounds
  | singularMatrix
deriving DecidableEq, Repr

/-- Modelled from the spec: the Verifier's dimension-mismatch failure. -/
inductive MulError where
  | dimensionMismatch
deriving DecidableEq, Repr

instance {ε α : Type _} [DecidableEq ε] [DecidableEq α] : DecidableEq (Except ε α) := fun x y =>
  match x, y with
  | .error a, .error b =>
      if h : a = b then .isTrue (h ▸ rfl) else .isFalse fun hc => h (Except.error.inj hc)
  | .ok a, .ok b =>
      if h : a = b then .isTrue (h ▸ rfl) else .isFalse fun hc => h (Except.ok.inj hc)
  | .error _, .ok _ => .isFalse fun hc => Except.noConfusion hc
  | .ok _, .error _ => .isFalse fun hc => Except.noConfusion hc

/-- Entry `(i, j)` of a list-of-rows matrix, defaulting to `0` out of range. -/
def entry (m : Mat) (i j : Nat) : ℚ := (m.getD i []).getD j 0

/-- Modelled from the spec: the singularity threshold, `1e-12`, an absolute
comparison. -/
def pivotEps : ℚ := 1 / 10 ^ 12

/-- Modelled from the spec: the default tolerance of the identity-closeness
check, `1e-9`. -/
def idTol : ℚ := 1 / 10 ^ 9

/-- Row `i` of the `n × n` identity matrix. -/
def idRow (n i : Nat) : List ℚ := (List.range n).map (fun j => if i = j then 1 else 0)

/-- Modelled from the spec: the augmented matrix — left half a copy of the
input, right half the identity of the same order. -/
def buildAug (a : Mat) : Mat :=
  (List.range a.length).map (fun i => a.getD i [] ++ idRow a.length i)

/-- Left-to-right scan keeping the first index of maximum absolute value in
column `col` (strict improvement replaces the current best). -/
def scanMax (m : Mat) (col : Nat) : Nat → List Nat → Nat
  | best, [] => best
  | best, i :: is => scanMax m col (if |entry m best col| < |entry m i col| then i else best) is

/-- Modelled from the spec: partial-pivot selection — among rows `k..n-1`,
the first row index whose entry in column `k` has the maximum absolute
value. -/
def pivotRow (m : Mat) (k n : Nat) : Nat :=
  scanMax m k k (List.range' (k + 1) (n - (k + 1)))

/-- Exchange rows `i` and `j` (all columns). -/
def swapRows (m : Mat) (i j : Nat) : Mat :=
  (List.range m.length).map (fun r =>
    if r = i then m.getD j [] else if r = j then m.getD i [] else m.getD r [])

/-- Multiply every entry of row `k` by `c` (the spec's normalization step is
multiplication by the reciprocal of the pivot). -/
def scaleRow (m : Mat) (k : Nat) (c : ℚ) : Mat :=
  (List.range m.length).map (fun r =>
    if r = k then (m.getD k []).map (fun x => x * c) else m.getD r [])

/-- Modelled from the spec: the elimination step for pivot column `k` — every
row `r ≠ k` gets `factor × row k` subtracted, where `factor = m[r][k]`; rows
with `factor = 0` are skipped. -/
def eliminate (m : Mat) (k n : Nat) : Mat :=
  (List.range n).map (fun r =>
    if r = k then m.getD r []
    else if entry m r k = 0 then m.getD r []
    else List.zipWith (fun a b => a - entry m r k * b) (m.getD r []) (m.getD k []))

/-- Modelled from the spec: one Gauss-Jordan step on pivot column `k` —
pivot selection, singularity check against `1e-12`, row swap, normalization
by the reciprocal, and elimination in all other rows. -/
def gjStep (n : Nat) (aug : Mat) (k : Nat) : Except InvError Mat :=
  let p := pivotRow aug k n
  let piv := entry aug p k
  if |piv| < pivotEps then .error .singularMatrix
  else
    let aug1 := if p = k then aug else swapRows aug k p
    let aug2 := scaleRow aug1 k (entry aug1 k k)⁻¹
    .ok (eliminate aug2 k n)

/-- Run Gauss-Jordan steps over the given list of pivot columns, stopping at
the first failure. -/
def gjCols (n : Nat) (aug : Mat) : List Nat → Except InvError Mat
  | [] => .ok aug
  | k :: ks =>
    match gjStep n aug k with
    | .error e => .error e
    | .ok aug2 => gjCols n aug2 ks

/-- Modelled from the spec: the full elimination loop over pivot columns
`0 .. n-1`. -/
def gjRun (n : Nat) (aug : Mat) : Except InvError Mat :=
  gjCols n aug (List.range n)

/-- Modelled from the spec: `Invert` — structural validation in the spec's
order (empty input, ragged rows, non-numeric entry, non-square, size out of
`[2,5]`), then Gauss-Jordan elimination with partial pivoting on the augmented
matrix; the right half of the final augmented matrix is the inverse. -/
def invert (a : List (List Cell)) : Except InvError Mat :=
  if a = [] ∨ ∃ row ∈ a, row = [] then .error .emptyInput
  else if ¬ ∀ row ∈ a, row.length = (a.headD []).length then .error .raggedRows
  else if ∃ row ∈ a, ∃ c ∈ row, cellVal c = none then .error .nonNumericEntry
  else if a.length ≠ (a.headD []).length then .error .nonSquare
  else if a.length < 2 ∨ 5 < a.length then .error .sizeOutOfBounds
  else
    match gjRun a.length (buildAug (a.map (fun row => row.map (fun c => (cellVal c).getD 0)))) with
    | .error e => .error e
    | .ok fin => .ok (fin.map (List.drop a.length))

/-- View a plain numeric matrix as Inverter input. -/
def toCells (a : Mat) : List (List Cell) := a.map (fun row => row.map Cell.num)

/-- Modelled from the spec: `Multiply` — standard matrix product, requiring
the column count of `A` to equal the row count of `B`; the inner accumulation
skips terms whose left factor is exactly zero. -/
def multiply (A B : Mat) : Except MulError Mat :=
  if (A.headD []).length ≠ B.length then .error .dimensionMismatch
  else .ok ((List.range A.length).map (fun i =>
    (List.range (B.headD []).length).map (fun j =>
      (List.range B.length).foldl (fun acc t =>
        if entry A i t = 0 then acc else acc + entry A i t * entry B t j) 0)))

/-- Modelled from the spec: `IsCloseToIdentity` — true iff the matrix is
square and every diagonal entry is within `tol` of `1` and every off-diagonal
entry within `tol` of `0` (absolute difference). -/
def isCloseToIdentity (M : Mat) (tol : ℚ) : Bool :=
  M.all (fun row => row.length = M.length) &&
  (List.range M.length).all (fun i => (List.range M.length).all (fun j =>
    |entry M i j - (if i = j then 1 else 0)| ≤ tol))

/-- A well-formed `r × c` list matrix: `r` rows, each of length `c`. -/
def Dims (m : Mat) (r c : Nat) : Prop := m.length = r ∧ ∀ row ∈ m, row.length = c

/-- The calling contract of the Inverter on a plain numeric matrix: non-empty,
square (every row as long as the row count), with the row count in `[2,5]`. -/
def ValidInput (A : Mat) : Prop :=
  A ≠ [] ∧ (∀ row ∈ A, row.length = A.length) ∧ 2 ≤ A.length ∧ A.length ≤ 5

instance (A : Mat) : Decidable (ValidInput A) :=
  inferInstanceAs (Decidable
    (A ≠ [] ∧ (∀ row ∈ A, row.length = A.length) ∧ 2 ≤ A.length ∧ A.length ≤ 5))

/-- Loop invariant: the left half of the augmented matrix equals the right
half multiplied by the original matrix `A` (each elimination row operation is
linear, so this is preserved). -/
def RelA (A : Mat) (n : Nat) (m : Mat) : Prop :=
  ∀ i < n, ∀ j < n, entry m i j = ∑ t ∈ Finset.range n, entry m i (n + t) * entry A t j

/-- Loop invariant: after processing pivot columns `0 .. k-1`, those columns
of the (left half of the) augmented matrix are identity columns. -/
def IdUpTo (k n : Nat) (m : Mat) : Prop :=
  ∀ j < k, ∀ i < n, entry m i j = if i = j then 1 else 0

/-- The top-left `n × n` corner of a list matrix as a Mathlib matrix. -/
def toMat (n : Nat) (m : Mat) : Matrix (Fin n) (Fin n) ℚ :=
  Matrix.of (fun i j => entry m i.val j.val)

/-! GUI layer (`matrix_inverse_gui.py`): size validation and clamping. -/

/-- `MIN_MATRIX_SIZE` from `matrix_inverse_gui.py`. -/
def MIN_MATRIX_SIZE : ℤ := 2

/-- `MAX_MATRIX_SIZE` from `matrix_inverse_gui.py`. -/
def MAX_MATRIX_SIZE : ℤ := 5

/-- `DEFAULT_MATRIX_SIZE` from `matrix_inverse_gui.py`. -/
def DEFAULT_MATRIX_SIZE : ℤ := 3

/-- Numeric value of a digit string (no sign), most significant first. -/
def digitsToNat (l : List Char) : Nat := l.foldl (fun a c => 10 * a + (c.toNat - 48)) 0

/-- Model of Python's `int(s)` on the strings relevant here: an optional
leading sign followed by one or more decimal digits parses to the denoted
integer; everything else raises `ValueError` (modelled as `none`). -/
def pyInt? (s : String) : Option ℤ :=
  match s.data with
  | [] => none
  | c :: rest =>
    if c = '-' then
      if rest ≠ [] ∧ rest.all (fun d => d.isDigit) then some (-(digitsToNat rest : ℤ)) else none
    else if c = '+' then
      if rest ≠ [] ∧ rest.all (fun d => d.isDigit) then some ((digitsToNat rest : ℤ)) else none
    else if (c :: rest).all (fun d => d.isDigit) then some ((digitsToNat (c :: rest) : ℤ)) else none

/-- `MatrixInverseApp._validate_size` from `matrix_inverse_gui.py`: the empty
string is allowed during editing; otherwise the proposed value must parse as
an integer (`int(value_if_allowed)`, `ValueError` giving `False`) lying in
`[MIN_MATRIX_SIZE, MAX_MATRIX_SIZE]`. -/
def validate_size (s : String) : Bool :=
  if s = "" then true
  else
    match pyInt? s with
    | some v => decide (MIN_MATRIX_SIZE ≤ v ∧ v ≤ MAX_MATRIX_SIZE)
    | none => false

/-- `MatrixInverseApp._ensure_valid_size` from `matrix_inverse_gui.py`,
modelled on the stored size variable: `some v` is a state whose `IntVar.get()`
succeeds with `v`; `none` is a state where the read raises `tk.TclError`
(non-integer content).  The result is the value stored back: clamp below the
minimum to `MIN_MATRIX_SIZE`, above the maximum to `MAX_MATRIX_SIZE`, leave
in-range values unchanged, and reset unreadable states to
`DEFAULT_MATRIX_SIZE`. -/
def ensure_valid_size : Option ℤ → ℤ
  | some v =>
    if v < MIN_MATRIX_SIZE then MIN_MATRIX_SIZE
    else if MAX_MATRIX_SIZE < v then MAX_MATRIX_SIZE
    else v
  | none => DEFAULT_MATRIX_SIZE

/-! Basic list-access lemmas. -/

lemma getD_of_lt {α : Type _} (l : List α) (d : α) {i : Nat} (h : i < l.length) :
    l.getD i d = l[i] := by
  simp [List.getD_eq_getElem?_getD, List.getElem?_eq_getElem h]

lemma getD_of_ge {α : Type _} (l : List α) (d : α) {i : Nat} (h : l.length ≤ i) :
    l.getD i d = d := by
  simp [List.getD_eq_getElem?_getD, List.getElem?_eq_none h]

lemma length_rangeMap (n : Nat) (f : Nat → List ℚ) :
    ((List.range n).map f).length = n := by simp

lemma row_rangeMap (n : Nat) (f : Nat → List ℚ) {i : Nat} (h : i < n) :
    ((List.range n).map f).getD i [] = f i := by
  rw [getD_of_lt _ _ (by simpa using h)]
  simp

lemma entry_rangeMap (n : Nat) (f : Nat → List ℚ) {i : Nat} (h : i < n) (j : Nat) :
    entry ((List.range n).map f) i j = (f i).getD j 0 := by
  rw [entry, row_rangeMap n f h]

lemma entry_of_ge {m : Mat} {i : Nat} (h : m.length ≤ i) (j : Nat) : entry m i j = 0 := by
  rw [entry, getD_of_ge _ _ h]
  simp

lemma dims_rangeMap {n c : Nat} {f : Nat → List ℚ}
    (h : ∀ i < n, (f i).length = c) : Dims ((List.range n).map f) n c := by
  refine ⟨by simp, ?_⟩
  intro row hrow
  rcases List.mem_map.mp hrow with ⟨i, hi, rfl⟩
  exact h i (List.mem_range.mp hi)

lemma Dims.rowLen {m : Mat} {r c : Nat} (hd : Dims m r c) {i : Nat} (h : i < r) :
    (m.getD i []).length = c := by
  have hi : i < m.length := hd.1 ▸ h
  rw [getD_of_lt _ _ hi]
  exact hd.2 _ (List.getElem_mem hi)

/-! Row-level value lemmas. -/

lemma getD_map_mul (row : List ℚ) (c : ℚ) (j : Nat) :
    ((row.map (fun x => x * c)).getD j 0) = row.getD j 0 * c := by
  by_cases h : j < row.length
  · rw [getD_of_lt _ _ (by simpa using h), getD_of_lt _ _ h]
    simp
  · rw [getD_of_ge _ _ (by simpa using le_of_not_lt h), getD_of_ge _ _ (le_of_not_lt h)]
    ring

lemma getD_zipWith_sub (r1 r2 : List ℚ) (f : ℚ) (hlen : r1.length = r2.length) (j : Nat) :
    ((List.zipWith (fun a b => a - f * b) r1 r2).getD j 0) =
      r1.getD j 0 - f * r2.getD j 0 := by
  by_cases h : j < r1.length
  · have h2 : j < r2.length := hlen ▸ h
    rw [getD_of_lt _ _ (by simp; omega), getD_of_lt _ _ h, getD_of_lt _ _ h2]
    simp
  · have h1 : r1.length ≤ j := le_of_not_lt h
    have h2 : r2.length ≤ j := hlen ▸ h1
    rw [getD_of_ge _ _ (by simp; omega), getD_of_ge _ _ h1, getD_of_ge _ _ h2]
    ring

lemma getD_append_left (r1 r2 : List ℚ) {j : Nat} (h : j < r1.length) :
    ((r1 ++ r2).getD j 0) = r1.getD j 0 := by
  rw [getD_of_lt _ _ (by simp; omega), getD_of_lt _ _ h]
  exact List.getElem_append_left h

lemma getD_append_right (r1 r2 : List ℚ) {j : Nat} (h : r1.length ≤ j) :
    ((r1 ++ r2).getD j 0) = r2.getD (j - r1.length) 0 := by
  by_cases h2 : j < r1.length + r2.length
  · rw [getD_of_lt _ _ (by simp; omega), getD_of_lt _ _ (by omega)]
    exact List.getElem_append_right h
  · rw [getD_of_ge _ _ (by simp; omega), getD_of_ge _ _ (by omega)]

lemma length_idRow (n i : Nat) : (idRow n i).length = n := by simp [idRow]

lemma getD_idRow (n i : Nat) {j : Nat} (h : j < n) :
    ((idRow n i).getD j 0) = if i = j then 1 else 0 := by
  rw [idRow, getD_of_lt _ _ (by simp [h])]
  simp

/-! Entry characterizations of the row operations. -/

lemma entry_swapRows (m : Mat) (a b : Nat) {i : Nat} (hi : i < m.length) (j : Nat) :
    entry (swapRows m a b) i j =
      if i = a then entry m b j else if i = b then entry m a j else entry m i j := by
  rw [swapRows, entry_rangeMap _ _ hi]
  by_cases h1 : i = a
  · rw [if_pos h1, if_pos h1]; rfl
  · rw [if_neg h1, if_neg h1]
    by_cases h2 : i = b
    · rw [if_pos h2, if_pos h2]; rfl
    · rw [if_neg h2, if_neg h2]; rfl

lemma dims_swapRows {m : Mat} {n c : Nat} (hd : Dims m n c) {a b : Nat}
    (ha : a < n) (hb : b < n) : Dims (swapRows m a b) n c := by
  rw [swapRows, hd.1]
  refine dims_rangeMap ?_
  intro i hi
  by_cases h1 : i = a
  · rw [if_pos h1]; exact hd.rowLen hb
  · rw [if_neg h1]
    by_cases h2 : i = b
    · rw [if_pos h2]; exact hd.rowLen ha
    · rw [if_neg h2]; exact hd.rowLen hi

lemma entry_scaleRow (m : Mat) (k : Nat) (c : ℚ) {i : Nat} (hi : i < m.length) (j : Nat) :
    entry (scaleRow m k c) i j = if i = k then entry m k j * c else entry m i j := by
  rw [scaleRow, entry_rangeMap _ _ hi]
  by_cases h1 : i = k
  · rw [if_pos h1, if_pos h1]; exact getD_map_mul _ _ _
  · rw [if_neg h1, if_neg h1]; rfl

lemma dims_scaleRow {m : Mat} {n c : Nat} (hd : Dims m n c) {k : Nat} (hk : k < n)
    (q : ℚ) : Dims (scaleRow m k q) n c := by
  rw [scaleRow, hd.1]
  refine dims_rangeMap ?_
  intro i hi
  by_cases h1 : i = k
  · rw [if_pos h1, List.length_map]; exact hd.rowLen hk
  · rw [if_neg h1]; exact hd.rowLen hi

lemma entry_eliminate {m : Mat} {n c : Nat} (hd : Dims m n c) {k r : Nat}
    (hk : k < n) (hr : r < n) (j : Nat) :
    entry (eliminate m k n) r j =
      if r = k then entry m k j else entry m r j - entry m r k * entry m k j := by
  rw [eliminate, entry_rangeMap _ _ hr]
  by_cases h1 : r = k
  · rw [if_pos h1, if_pos h1, h1]; rfl
  · rw [if_neg h1, if_neg h1]
    by_cases h2 : entry m r k = 0
    · rw [if_pos h2, h2]
      show entry m r j = entry m r j - 0 * entry m k j
      ring
    · rw [if_neg h2]
      exact getD_zipWith_sub (m.getD r []) (m.getD k []) (entry m r k)
        (by rw [hd.rowLen hr, hd.rowLen hk]) j

lemma dims_eliminate {m : Mat} {n c : Nat} (hd : Dims m n c) {k : Nat} (hk : k < n) :
    Dims (eliminate m k n) n c := by
  rw [eliminate]
  refine dims_rangeMap ?_
  intro i hi
  by_cases h1 : i = k
  · rw [if_pos h1]; exact hd.rowLen hi
  · rw [if_neg h1]
    by_cases h2 : entry m i k = 0
    · rw [if_pos h2]; exact hd.rowLen hi
    · rw [if_neg h2, List.length_zipWith, hd.rowLen hi, hd.rowLen hk]
      exact min_self c

lemma dims_buildAug {A : Mat} {n : Nat} (hd : Dims A n n) :
    Dims (buildAug A) n (n + n) := by
  rw [buildAug, hd.1]
  refine dims_rangeMap ?_
  intro i hi
  rw [List.length_append, hd.rowLen hi, length_idRow]

lemma entry_buildAug_left {A : Mat} {n : Nat} (hd : Dims A n n) {i j : Nat}
    (hi : i < n) (hj : j < n) : entry (buildAug A) i j = entry A i j := by
  rw [buildAug, hd.1, entry_rangeMap _ _ hi,
    getD_append_left _ _ (by rw [hd.rowLen hi]; exact hj)]
  rfl

lemma entry_buildAug_right {A : Mat} {n : Nat} (hd : Dims A n n) {i t : Nat}
    (hi : i < n) (ht : t < n) :
    entry (buildAug A) i (n + t) = if i = t then 1 else 0 := by
  rw [buildAug, hd.1, entry_rangeMap _ _ hi,
    getD_append_right _ _ (by rw [hd.rowLen hi]; omega), hd.rowLen hi]
  have harr : n + t - n = t := by omega
  rw [harr, getD_idRow _ _ ht]

/-! Pivot-scan characterization: `pivotRow` returns the first row index in
`[k, n)` whose column-`k` entry has maximal absolute value. -/

lemma scanMax_nil (m : Mat) (col best : Nat) : scanMax m col best [] = best := rfl

lemma scanMax_cons (m : Mat) (col best i : Nat) (is : List Nat) :
    scanMax m col best (i :: is) =
      scanMax m col (if |entry m best col| < |entry m i col| then i else best) is := rfl

lemma scanMax_spec (m : Mat) (col : Nat) :
    ∀ (cnt a best : Nat), best < a →
      (∀ i, col ≤ i → i < a → |entry m i col| ≤ |entry m best col|) →
      (∀ i, col ≤ i → i < best → |entry m i col| < |entry m best col|) →
      col ≤ best →
      col ≤ scanMax m col best (List.range' a cnt) ∧
        scanMax m col best (List.range' a cnt) < a + cnt ∧
        (∀ i, col ≤ i → i < a + cnt →
          |entry m i col| ≤ |entry m (scanMax m col best (List.range' a cnt)) col|) ∧
        (∀ i, col ≤ i → i < scanMax m col best (List.range' a cnt) →
          |entry m i col| < |entry m (scanMax m col best (List.range' a cnt)) col|) := by
  intro cnt
  induction cnt with
  | zero =>
    intro a best hba hle hlt hcb
    rw [List.range']
    rw [scanMax_nil]
    exact ⟨hcb, by omega, fun i h1 h2 => hle i h1 (by omega), hlt⟩
  | succ cnt ih =>
    intro a best hba hle hlt hcb
    rw [List.range'_succ, scanMax_cons]
    by_cases hcase : |entry m best col| < |entry m a col|
    · rw [if_pos hcase]
      have hres := ih (a + 1) a (by omega)
        (fun i h1 h2 => by
          by_cases he : i = a
          · subst he; exact le_refl _
          · exact le_of_lt (lt_of_le_of_lt (hle i h1 (by omega)) hcase))
        (fun i h1 h2 => lt_of_le_of_lt (hle i h1 h2) hcase)
        (by omega)
      have harr : a + 1 + cnt = a + (cnt + 1) := by omega
      rw [harr] at hres
      exact hres
    · rw [if_neg hcase]
      have hres := ih (a + 1) best (by omega)
        (fun i h1 h2 => by
          by_cases he : i = a
          · subst he; exact le_of_not_lt hcase
          · exact hle i h1 (by omega))
        hlt hcb
      have harr : a + 1 + cnt = a + (cnt + 1) := by omega
      rw [harr] at hres
      exact hres

lemma pivotRow_spec (m : Mat) {k n : Nat} (hk : k < n) :
    k ≤ pivotRow m k n ∧ pivotRow m k n < n ∧
      (∀ i, k ≤ i → i < n → |entry m i k| ≤ |entry m (pivotRow m k n) k|) ∧
      (∀ i, k ≤ i → i < pivotRow m k n → |entry m i k| < |entry m (pivotRow m k n) k|) := by
  have hres := scanMax_spec m k (n - (k + 1)) (k + 1) k (by omega)
    (fun i h1 h2 => by
      have heq : i = k := by omega
      subst heq; exact le_refl _)
    (fun i h1 h2 => by omega)
    (le_refl k)
  have harr : k + 1 + (n - (k + 1)) = n := by omega
  rw [harr] at hres
  exact ⟨hres.1, hres.2.1, hres.2.2.1, hres.2.2.2⟩

/-! The Gauss-Jordan step preserves the invariants. -/

lemma pivotEps_pos : 0 < pivotEps := by norm_num [pivotEps]

/-- Each row operation replaces every row by a linear combination of (at
most two) old rows, applied across the whole augmented row; any such
transformation preserves the left-equals-right-times-A invariant. -/
lemma RelA_combo {A : Mat} {n : Nat} {m m2 : Mat} (hrel : RelA A n m)
    (h : ∀ i, i < n → ∃ c1 a c2 b, a < n ∧ b < n ∧
      ∀ j, entry m2 i j = c1 * entry m a j + c2 * entry m b j) :
    RelA A n m2 := by
  intro i hi j hj
  obtain ⟨c1, a, c2, b, ha, hb, hrow⟩ := h i hi
  rw [hrow j]
  calc c1 * entry m a j + c2 * entry m b j
      = c1 * (∑ t ∈ Finset.range n, entry m a (n + t) * entry A t j) +
        c2 * (∑ t ∈ Finset.range n, entry m b (n + t) * entry A t j) := by
        rw [hrel a ha j hj, hrel b hb j hj]
    _ = ∑ t ∈ Finset.range n,
          (c1 * entry m a (n + t) + c2 * entry m b (n + t)) * entry A t j := by
        rw [Finset.mul_sum, Finset.mul_sum, ← Finset.sum_add_distrib]
        refine Finset.sum_congr rfl ?_
        intro t ht
        ring
    _ = ∑ t ∈ Finset.range n, entry m2 i (n + t) * entry A t j := by
        refine Finset.sum_congr rfl ?_
        intro t ht
        rw [hrow (n + t)]

lemma entry_pivotSwap (m : Mat) (k p : Nat) {i : Nat} (hi : i < m.length) (j : Nat) :
    entry (if p = k then m else swapRows m k p) i j =
      if i = k then entry m p j else if i = p then entry m k j else entry m i j := by
  by_cases hpk : p = k
  · subst hpk
    rw [if_pos rfl]
    by_cases h1 : i = p
    · rw [if_pos h1, h1]
    · rw [if_neg h1, if_neg h1]
  · rw [if_neg hpk]
    exact entry_swapRows m k p hi j

lemma dims_pivotSwap {m : Mat} {n c : Nat} (hd : Dims m n c) {k p : Nat}
    (hk : k < n) (hp : p < n) : Dims (if p = k then m else swapRows m k p) n c := by
  by_cases hpk : p = k
  · rw [if_pos hpk]; exact hd
  · rw [if_neg hpk]; exact dims_swapRows hd hk hp

lemma gjStep_eq (n : Nat) (aug : Mat) (k : Nat) :
    gjStep n aug k =
      if |entry aug (pivotRow aug k n) k| < pivotEps then .error .singularMatrix
      else .ok (eliminate (scaleRow
        (if pivotRow aug k n = k then aug else swapRows aug k (pivotRow aug k n)) k
        (entry (if pivotRow aug k n = k then aug
          else swapRows aug k (pivotRow aug k n)) k k)⁻¹) k n) := rfl

lemma gjStep_ok {A : Mat} {n k : Nat} {aug aug' : Mat}
    (hk : k < n) (hd : Dims aug n (n + n))
    (hstep : gjStep n aug k = .ok aug') :
    Dims aug' n (n + n) ∧ (RelA A n aug → RelA A n aug') ∧
      (IdUpTo k n aug → IdUpTo (k + 1) n aug') := by
  obtain ⟨hkp, hpn, hmax, hfirst⟩ := pivotRow_spec aug hk
  rw [gjStep_eq] at hstep
  by_cases hpiv : |entry aug (pivotRow aug k n) k| < pivotEps
  · rw [if_pos hpiv] at hstep
    exact Except.noConfusion hstep
  · rw [if_neg hpiv] at hstep
    set p := pivotRow aug k n with hpdef
    set aug1 := if p = k then aug else swapRows aug k p with haug1
    set c := (entry aug1 k k)⁻¹ with hcdef
    set aug2 := scaleRow aug1 k c with haug2
    have haug' : aug' = eliminate aug2 k n := (Except.ok.inj hstep).symm
    have hd1 : Dims aug1 n (n + n) := dims_pivotSwap hd hk hpn
    have hd2 : Dims aug2 n (n + n) := dims_scaleRow hd1 hk c
    have hd' : Dims aug' n (n + n) := haug' ▸ dims_eliminate hd2 hk
    have e1 : ∀ i, i < n → ∀ j, entry aug1 i j =
        if i = k then entry aug p j else if i = p then entry aug k j else entry aug i j :=
      fun i hi j => entry_pivotSwap aug k p (by rw [hd.1]; exact hi) j
    have e2 : ∀ i, i < n → ∀ j, entry aug2 i j =
        if i = k then entry aug1 k j * c else entry aug1 i j :=
      fun i hi j => entry_scaleRow aug1 k c (by rw [hd1.1]; exact hi) j
    have e3 : ∀ r, r < n → ∀ j, entry aug' r j =
        if r = k then entry aug2 k j
        else entry aug2 r j - entry aug2 r k * entry aug2 k j := by
      rw [haug']
      exact fun r hr j => entry_eliminate hd2 hk hr j
    have hpivne : entry aug p k ≠ 0 := by
      have hlt : 0 < |entry aug p k| := lt_of_lt_of_le pivotEps_pos (not_lt.mp hpiv)
      exact abs_pos.mp hlt
    have e1kk : entry aug1 k k = entry aug p k := by
      rw [e1 k hk k, if_pos rfl]
    have e2kk : entry aug2 k k = 1 := by
      rw [e2 k hk k, if_pos rfl, hcdef, e1kk]
      exact mul_inv_cancel₀ hpivne
    refine ⟨hd', ?_, ?_⟩
    · intro hrel
      have hrel1 : RelA A n aug1 := by
        refine RelA_combo hrel ?_
        intro i hi
        by_cases h1 : i = k
        · exact ⟨1, p, 0, k, hpn, hk, fun j => by rw [e1 i hi j, if_pos h1]; ring⟩
        · by_cases h2 : i = p
          · exact ⟨1, k, 0, k, hk, hk, fun j => by
              rw [e1 i hi j, if_neg h1, if_pos h2]; ring⟩
          · exact ⟨1, i, 0, k, hi, hk, fun j => by
              rw [e1 i hi j, if_neg h1, if_neg h2]; ring⟩
      have hrel2 : RelA A n aug2 := by
        refine RelA_combo hrel1 ?_
        intro i hi
        by_cases h1 : i = k
        · exact ⟨c, k, 0, k, hk, hk, fun j => by rw [e2 i hi j, if_pos h1]; ring⟩
        · exact ⟨1, i, 0, k, hi, hk, fun j => by rw [e2 i hi j, if_neg h1]; ring⟩
      refine RelA_combo hrel2 ?_
      intro r hr
      by_cases h1 : r = k
      · exact ⟨1, k, 0, k, hk, hk, fun j => by rw [e3 r hr j, if_pos h1]; ring⟩
      · exact ⟨1, r, -(entry aug2 r k), k, hr, hk, fun j => by
          rw [e3 r hr j, if_neg h1]; ring⟩
    · intro hid
      intro j hj i hi
      by_cases hjk : j = k
      · subst hjk
        by_cases hik : i = j
        · rw [e3 i hi j, if_pos hik, hik, e2kk]
          rw [if_pos rfl]
        · rw [e3 i hi j, if_neg hik, e2kk, if_neg hik]
          ring
      · have hjlt : j < k := by omega
        have hkj : entry aug k j = 0 := by
          rw [hid j hjlt k hk, if_neg (by omega)]
        have hpj : entry aug p j = 0 := by
          rw [hid j hjlt p hpn, if_neg (by omega)]
        have e1j : ∀ q, q < n → entry aug1 q j = if q = j then 1 else 0 := by
          intro q hq
          rw [e1 q hq j]
          by_cases h1 : q = k
          · rw [if_pos h1, hpj, if_neg (by omega)]
          · rw [if_neg h1]
            by_cases h2 : q = p
            · rw [if_pos h2, hkj, if_neg (by omega)]
            · rw [if_neg h2]
              exact hid j hjlt q hq
        have e2j : ∀ q, q < n → entry aug2 q j = if q = j then 1 else 0 := by
          intro q hq
          rw [e2 q hq j]
          by_cases h1 : q = k
          · rw [if_pos h1, e1j k hk, if_neg (by omega), if_neg (by omega)]
            ring
          · rw [if_neg h1]
            exact e1j q hq
        by_cases hik : i = k
        · rw [e3 i hi j, if_pos hik, e2j k hk, hik]
        · rw [e3 i hi j, if_neg hik, e2j i hi, e2j k hk,
            if_neg (show ¬k = j by omega)]
          by_cases h2 : i = j
          · rw [if_pos h2]
            ring
          · rw [if_neg h2]
            ring

/-! Running the elimination loop: invariants at the end, and the
characterization of singular failures. -/

lemma gjCols_nil (n : Nat) (aug : Mat) : gjCols n aug [] = .ok aug := rfl

lemma gjCols_cons (n : Nat) (aug : Mat) (k : Nat) (ks : List Nat) :
    gjCols n aug (k :: ks) =
      match gjStep n aug k with
      | .error e => .error e
      | .ok aug2 => gjCols n aug2 ks := rfl

lemma IdUpTo_zero (n : Nat) (m : Mat) : IdUpTo 0 n m := by
  intro j hj
  omega

lemma buildAug_relA {A : Mat} {n : Nat} (hd : Dims A n n) : RelA A n (buildAug A) := by
  intro i hi j hj
  rw [entry_buildAug_left hd hi hj]
  have hterm : ∀ t ∈ Finset.range n,
      entry (buildAug A) i (n + t) * entry A t j =
        if i = t then entry A t j else 0 := by
    intro t ht
    rw [entry_buildAug_right hd hi (Finset.mem_range.mp ht)]
    by_cases hit : i = t
    · rw [if_pos hit, if_pos hit, one_mul]
    · rw [if_neg hit, if_neg hit, zero_mul]
  rw [Finset.sum_congr rfl hterm, Finset.sum_ite_eq, if_pos (Finset.mem_range.mpr hi)]

lemma gjCols_run {A : Mat} {n : Nat} :
    ∀ (cnt k : Nat) (aug fin : Mat), k + cnt = n →
      Dims aug n (n + n) → RelA A n aug → IdUpTo k n aug →
      gjCols n aug (List.range' k cnt) = .ok fin →
      Dims fin n (n + n) ∧ RelA A n fin ∧ IdUpTo n n fin := by
  intro cnt
  induction cnt with
  | zero =>
    intro k aug fin hkn hd hrel hid hrun
    have hfa : aug = fin := Except.ok.inj hrun
    have hkeq : k = n := by omega
    subst hfa
    exact ⟨hd, hrel, hkeq ▸ hid⟩
  | succ cnt ih =>
    intro k aug fin hkn hd hrel hid hrun
    rw [List.range'_succ, gjCols_cons] at hrun
    cases hstep : gjStep n aug k with
    | error e =>
      rw [hstep] at hrun
      exact Except.noConfusion hrun
    | ok aug2 =>
      rw [hstep] at hrun
      obtain ⟨hd2, hrel2, hid2⟩ := gjStep_ok (A := A) (by omega) hd hstep
      exact ih (k + 1) aug2 fin (by omega) hd2 (hrel2 hrel) (hid2 hid) hrun

lemma gjStep_error_iff (n : Nat) (aug : Mat) (k : Nat) (e : InvError) :
    gjStep n aug k = .error e ↔
      e = .singularMatrix ∧ |entry aug (pivotRow aug k n) k| < pivotEps := by
  rw [gjStep_eq]
  by_cases hpiv : |entry aug (pivotRow aug k n) k| < pivotEps
  · rw [if_pos hpiv]
    constructor
    · intro h
      exact ⟨(Except.error.inj h).symm, hpiv⟩
    · rintro ⟨rfl, -⟩
      rfl
  · rw [if_neg hpiv]
    constructor
    · intro h
      exact Except.noConfusion h
    · rintro ⟨rfl, hc⟩
      exact absurd hc hpiv

lemma gjCols_error_iff (n : Nat) :
    ∀ (cnt s : Nat) (aug : Mat) (e : InvError),
      gjCols n aug (List.range' s cnt) = .error e ↔
      ∃ j, j < cnt ∧ ∃ a, gjCols n aug (List.range' s j) = .ok a ∧
        gjStep n a (s + j) = .error e := by
  intro cnt
  induction cnt with
  | zero =>
    intro s aug e
    constructor
    · intro h
      exact Except.noConfusion h
    · rintro ⟨j, hj, -⟩
      omega
  | succ cnt ih =>
    intro s aug e
    rw [List.range'_succ, gjCols_cons]
    cases hstep : gjStep n aug s with
    | error e2 =>
      constructor
      · intro h
        refine ⟨0, by omega, aug, gjCols_nil n aug, ?_⟩
        rw [Nat.add_zero, hstep]
        exact h
      · rintro ⟨j, hj, a, hpre, hstepj⟩
        cases j with
        | zero =>
          have haa : aug = a := Except.ok.inj hpre
          rw [Nat.add_zero, ← haa, hstep] at hstepj
          exact hstepj
        | succ j2 =>
          rw [List.range'_succ, gjCols_cons, hstep] at hpre
          exact Except.noConfusion hpre
    | ok aug2 =>
      rw [ih (s + 1) aug2 e]
      constructor
      · rintro ⟨j, hj, a, hpre, hstepj⟩
        refine ⟨j + 1, by omega, a, ?_, ?_⟩
        · rw [List.range'_succ, gjCols_cons, hstep]
          exact hpre
        · have harr : s + (j + 1) = s + 1 + j := by omega
          rw [harr]
          exact hstepj
      · rintro ⟨j, hj, a, hpre, hstepj⟩
        cases j with
        | zero =>
          have haa : aug = a := Except.ok.inj hpre
          rw [Nat.add_zero, ← haa, hstep] at hstepj
          exact absurd hstepj (by intro hc; exact Except.noConfusion hc)
        | succ j2 =>
          rw [List.range'_succ, gjCols_cons, hstep] at hpre
          refine ⟨j2, by omega, a, hpre, ?_⟩
          have harr : s + 1 + j2 = s + (j2 + 1) := by omega
          rw [harr]
          exact hstepj

/-! Dissecting `invert` on well-formed numeric input. -/

lemma toCells_extract (A : Mat) :
    (toCells A).map (fun row => row.map (fun c => (cellVal c).getD 0)) = A := by
  rw [toCells, List.map_map]
  have hrow : ∀ row : List ℚ,
      (row.map Cell.num).map (fun c => (cellVal c).getD 0) = row := by
    intro row
    rw [List.map_map]
    have hfun : ((fun c => (cellVal c).getD 0) ∘ Cell.num) = id := by
      funext x
      rfl
    rw [hfun, List.map_id]
  have hcomp : ((fun row => List.map (fun c => (cellVal c).getD 0) row) ∘
      (fun row => List.map Cell.num row)) = id := by
    funext row
    exact hrow row
  rw [hcomp, List.map_id]

lemma length_toCells (A : Mat) : (toCells A).length = A.length := by
  rw [toCells, List.length_map]

lemma toCells_ne_nil {A : Mat} (h : A ≠ []) : toCells A ≠ [] := by
  cases A with
  | nil => exact absurd rfl h
  | cons r rest => exact fun hc => List.noConfusion hc

lemma headD_length_toCells {A : Mat} (h : A ≠ []) (hrows : ∀ row ∈ A, row.length = A.length) :
    ((toCells A).headD []).length = A.length := by
  cases A with
  | nil => exact absurd rfl h
  | cons r rest =>
    have : ((toCells (r :: rest)).headD []) = r.map Cell.num := rfl
    rw [this, List.length_map]
    exact hrows r (List.mem_cons_self r rest)

lemma validInput_dims {A : Mat} (h : ValidInput A) : Dims A A.length A.length :=
  ⟨rfl, h.2.1⟩

lemma invert_toCells_of_valid {A : Mat} (h : ValidInput A) :
    invert (toCells A) =
      match gjRun A.length (buildAug A) with
      | .error e => .error e
      | .ok fin => .ok (fin.map (List.drop A.length)) := by
  obtain ⟨hne, hrows, h2, h5⟩ := h
  have c1 : ¬(toCells A = [] ∨ ∃ row ∈ toCells A, row = []) := by
    rintro (hc | ⟨row, hrow, hrownil⟩)
    · exact toCells_ne_nil hne hc
    · rcases List.mem_map.mp hrow with ⟨r, hr, rfl⟩
      have hrlen : r.length = A.length := hrows r hr
      have : r.map Cell.num ≠ [] := by
        intro hc2
        have : r = [] := by
          cases r with
          | nil => rfl
          | cons x xs => exact List.noConfusion hc2
        rw [this] at hrlen
        simp at hrlen
        omega
      exact this hrownil
  have hhead : ((toCells A).headD []).length = A.length := headD_length_toCells hne hrows
  have c2 : ¬¬∀ row ∈ toCells A, row.length = ((toCells A).headD []).length := by
    rw [not_not]
    intro row hrow
    rcases List.mem_map.mp hrow with ⟨r, hr, rfl⟩
    rw [List.length_map, hhead]
    exact hrows r hr
  have c3 : ¬∃ row ∈ toCells A, ∃ c ∈ row, cellVal c = none := by
    rintro ⟨row, hrow, cell, hcell, hval⟩
    rcases List.mem_map.mp hrow with ⟨r, hr, rfl⟩
    rcases List.mem_map.mp hcell with ⟨x, hx, rfl⟩
    exact Option.noConfusion hval
  have c4 : ¬(toCells A).length ≠ ((toCells A).headD []).length := by
    rw [not_not, length_toCells, hhead]
  have c5 : ¬((toCells A).length < 2 ∨ 5 < (toCells A).length) := by
    rw [length_toCells]
    omega
  rw [invert, if_neg c1, if_neg c2, if_neg c3, if_neg c4, if_neg c5,
    toCells_extract, length_toCells]

lemma invert_toCells_ok {A B : Mat} (h : invert (toCells A) = .ok B) :
    ValidInput A ∧ ∃ fin, gjRun A.length (buildAug A) = .ok fin ∧
      B = fin.map (List.drop A.length) := by
  rw [invert] at h
  by_cases c1 : toCells A = [] ∨ ∃ row ∈ toCells A, row = []
  · rw [if_pos c1] at h
    exact Except.noConfusion h
  rw [if_neg c1] at h
  by_cases c2 : ¬∀ row ∈ toCells A, row.length = ((toCells A).headD []).length
  · rw [if_pos c2] at h
    exact Except.noConfusion h
  rw [if_neg c2] at h
  by_cases c3 : ∃ row ∈ toCells A, ∃ c ∈ row, cellVal c = none
  · rw [if_pos c3] at h
    exact Except.noConfusion h
  rw [if_neg c3] at h
  by_cases c4 : (toCells A).length ≠ ((toCells A).headD []).length
  · rw [if_pos c4] at h
    exact Except.noConfusion h
  rw [if_neg c4] at h
  by_cases c5 : (toCells A).length < 2 ∨ 5 < (toCells A).length
  · rw [if_pos c5] at h
    exact Except.noConfusion h
  rw [if_neg c5] at h
  rw [not_not] at c2
  rw [not_not] at c4
  rw [length_toCells] at c4 c5
  have hne : A ≠ [] := by
    intro hc
    exact c1 (Or.inl (by rw [hc]; rfl))
  have hrows : ∀ row ∈ A, row.length = A.length := by
    intro r hr
    have hmem : r.map Cell.num ∈ toCells A := List.mem_map.mpr ⟨r, hr, rfl⟩
    have := c2 (r.map Cell.num) hmem
    rw [List.length_map] at this
    rw [this, ← c4]
  have hvalid : ValidInput A := ⟨hne, hrows, by omega, by omega⟩
  rw [toCells_extract, length_toCells] at h
  cases hrun : gjRun A.length (buildAug A) with
  | error e =>
    rw [hrun] at h
    exact Except.noConfusion h
  | ok fin =>
    rw [hrun] at h
    exact ⟨hvalid, fin, rfl, (Except.ok.inj h).symm⟩

/-! From the final augmented matrix to the inverse, and the Verifier. -/

lemma headD_eq_getD_zero {α : Type _} (l : List α) (d : α) : l.headD d = l.getD 0 d := by
  cases l <;> rfl

lemma dims_dropMap {fin : Mat} {n : Nat} (hd : Dims fin n (n + n)) :
    Dims (fin.map (List.drop n)) n n := by
  refine ⟨by rw [List.length_map, hd.1], ?_⟩
  intro row hrow
  rcases List.mem_map.mp hrow with ⟨r, hr, rfl⟩
  rw [List.length_drop, hd.2 r hr]
  omega

lemma entry_dropMap {fin : Mat} {n : Nat} (hd : Dims fin n (n + n)) {i : Nat}
    (hi : i < n) (j : Nat) : entry (fin.map (List.drop n)) i j = entry fin i (n + j) := by
  have hlen : i < fin.length := by rw [hd.1]; exact hi
  have hrow : (fin.map (List.drop n)).getD i [] = (fin.getD i []).drop n := by
    rw [getD_of_lt _ _ (show i < (fin.map (List.drop n)).length by
        rw [List.length_map]; exact hlen),
      List.getElem_map, getD_of_lt _ _ hlen]
  rw [entry, entry, hrow]
  have hrowlen : (fin.getD i []).length = n + n := hd.rowLen hi
  by_cases hj : j < n
  · rw [getD_of_lt _ _ (show j < ((fin.getD i []).drop n).length by
        rw [List.length_drop, hrowlen]; omega),
      getD_of_lt _ _ (show n + j < (fin.getD i []).length by rw [hrowlen]; omega)]
    rw [List.getElem_drop]
  · rw [getD_of_ge _ _ (show ((fin.getD i []).drop n).length ≤ j by
        rw [List.length_drop, hrowlen]; omega),
      getD_of_ge _ _ (show (fin.getD i []).length ≤ n + j by rw [hrowlen]; omega)]

lemma toMat_mul_one {A B : Mat} {n : Nat}
    (hBA : ∀ i < n, ∀ j < n,
      (∑ t ∈ Finset.range n, entry B i t * entry A t j) = if i = j then 1 else 0) :
    toMat n B * toMat n A = 1 := by
  ext i j
  rw [Matrix.mul_apply, Matrix.one_apply]
  have hsum : (∑ t : Fin n, toMat n B i t * toMat n A t j) =
      ∑ t ∈ Finset.range n, entry B i.val t * entry A t j.val :=
    Fin.sum_univ_eq_sum_range (fun t => entry B i.val t * entry A t j.val) n
  rw [hsum, hBA i.val i.isLt j.val j.isLt]
  simp only [Fin.ext_iff]

lemma entries_of_mul_one {A B : Mat} {n : Nat} (h : toMat n A * toMat n B = 1) :
    ∀ i < n, ∀ j < n,
      (∑ t ∈ Finset.range n, entry A i t * entry B t j) = if i = j then 1 else 0 := by
  intro i hi j hj
  have happ : (toMat n A * toMat n B) ⟨i, hi⟩ ⟨j, hj⟩ =
      (1 : Matrix (Fin n) (Fin n) ℚ) ⟨i, hi⟩ ⟨j, hj⟩ := by rw [h]
  rw [Matrix.mul_apply, Matrix.one_apply] at happ
  have hsum : (∑ t : Fin n, toMat n A ⟨i, hi⟩ t * toMat n B t ⟨j, hj⟩) =
      ∑ t ∈ Finset.range n, entry A i t * entry B t j :=
    Fin.sum_univ_eq_sum_range (fun t => entry A i t * entry B t j) n
  rw [hsum] at happ
  rw [happ]
  simp only [Fin.mk.injEq]

lemma mulFold (f g : Nat → ℚ) :
    ∀ (q : Nat) (init : ℚ),
      (List.range q).foldl (fun acc t => if f t = 0 then acc else acc + f t * g t) init =
        init + ∑ t ∈ Finset.range q, f t * g t := by
  intro q
  induction q with
  | zero =>
    intro init
    simp
  | succ q ih =>
    intro init
    rw [List.range_succ, List.foldl_append, ih init, Finset.sum_range_succ]
    show (if f q = 0 then init + ∑ t ∈ Finset.range q, f t * g t
      else (init + ∑ t ∈ Finset.range q, f t * g t) + f q * g q) = _
    by_cases hq : f q = 0
    · rw [if_pos hq, hq, zero_mul, add_zero]
    · rw [if_neg hq, add_assoc]

lemma multiply_eval {A B : Mat} (hlen : (A.headD []).length = B.length) :
    multiply A B = .ok ((List.range A.length).map (fun i =>
      (List.range (B.headD []).length).map (fun j =>
        (List.range B.length).foldl (fun acc t =>
          if entry A i t = 0 then acc else acc + entry A i t * entry B t j) 0))) := by
  rw [multiply, if_neg (not_not_intro hlen)]

lemma isClose_of_entries {M : Mat} {n : Nat} {tol : ℚ} (htol : 0 ≤ tol)
    (hd : Dims M n n)
    (he : ∀ i < n, ∀ j < n, entry M i j = if i = j then 1 else 0) :
    isCloseToIdentity M tol = true := by
  rw [isCloseToIdentity, Bool.and_eq_true]
  constructor
  · rw [List.all_eq_true]
    intro row hrow
    rw [decide_eq_true_eq, hd.1]
    exact hd.2 row hrow
  · rw [List.all_eq_true]
    intro i hi
    rw [List.mem_range, hd.1] at hi
    rw [List.all_eq_true]
    intro j hj
    rw [List.mem_range, hd.1] at hj
    rw [decide_eq_true_eq, he i hi j hj]
    by_cases hij : i = j
    · rw [if_pos hij]
      simpa using htol
    · rw [if_neg hij]
      simpa using htol

lemma getD_rangeMapQ (n : Nat) (g : Nat → ℚ) {j : Nat} (h : j < n) :
    ((List.range n).map g).getD j 0 = g j := by
  rw [getD_of_lt _ _ (show j < ((List.range n).map g).length by simpa using h)]
  simp

lemma invert_ok_roundtrip {A B : Mat} (h : invert (toCells A) = .ok B) :
    ∃ C, multiply A B = .ok C ∧ isCloseToIdentity C (1 / 10 ^ 9) = true := by
  obtain ⟨hvalid, fin, hrun, hB⟩ := invert_toCells_ok h
  obtain ⟨hne, hrows, hge2, hle5⟩ := hvalid
  have hdA : Dims A A.length A.length := ⟨rfl, hrows⟩
  have hinit := dims_buildAug hdA
  have hrel0 := buildAug_relA hdA
  rw [gjRun, List.range_eq_range'] at hrun
  obtain ⟨hdfin, hrelfin, hidfin⟩ :=
    gjCols_run A.length 0 (buildAug A) fin (by omega) hinit hrel0 (IdUpTo_zero _ _) hrun
  subst hB
  have hdB : Dims (fin.map (List.drop A.length)) A.length A.length := dims_dropMap hdfin
  have hBA : ∀ i < A.length, ∀ j < A.length,
      (∑ t ∈ Finset.range A.length,
        entry (fin.map (List.drop A.length)) i t * entry A t j) =
      if i = j then 1 else 0 := by
    intro i hi j hj
    calc (∑ t ∈ Finset.range A.length,
            entry (fin.map (List.drop A.length)) i t * entry A t j)
        = ∑ t ∈ Finset.range A.length, entry fin i (A.length + t) * entry A t j := by
          refine Finset.sum_congr rfl ?_
          intro t ht
          rw [entry_dropMap hdfin hi t]
      _ = entry fin i j := (hrelfin i hi j hj).symm
      _ = if i = j then 1 else 0 := hidfin j hj i hi
  have hone : toMat A.length (fin.map (List.drop A.length)) * toMat A.length A = 1 :=
    toMat_mul_one hBA
  have hone2 : toMat A.length A * toMat A.length (fin.map (List.drop A.length)) = 1 :=
    Matrix.mul_eq_one_comm.mpr hone
  have hAB := entries_of_mul_one hone2
  have hheadA : (A.headD []).length = A.length := by
    rw [headD_eq_getD_zero]
    exact hdA.rowLen (by omega)
  have hheadB : ((fin.map (List.drop A.length)).headD []).length = A.length := by
    rw [headD_eq_getD_zero]
    exact hdB.rowLen (by omega)
  have hmul := multiply_eval (A := A) (B := fin.map (List.drop A.length))
    (by rw [hheadA, hdB.1])
  refine ⟨_, hmul, isClose_of_entries (n := A.length) (by norm_num) ?_ ?_⟩
  · refine dims_rangeMap ?_
    intro i hi
    rw [List.length_map, List.length_range, hheadB]
  · intro i hi j hj
    rw [entry_rangeMap _ _ hi j, getD_rangeMapQ _ _ (by rw [hheadB]; exact hj)]
    rw [mulFold (fun t => entry A i t) (fun t => entry (fin.map (List.drop A.length)) t j)
      (fin.map (List.drop A.length)).length 0, zero_add, hdB.1]
    exact hAB i hi j hj

/-! Characterization of singular failures of `invert`. -/

lemma invert_singular_iff {A : Mat} (h : ValidInput A) :
    invert (toCells A) = .error .singularMatrix ↔
      gjRun A.length (buildAug A) = .error .singularMatrix := by
  rw [invert_toCells_of_valid h]
  cases hrun : gjRun A.length (buildAug A) with
  | error e =>
    constructor
    · intro he
      exact he
    · intro he
      exact he
  | ok fin =>
    constructor
    · intro he
      exact Except.noConfusion he
    · intro he
      exact Except.noConfusion he

lemma singular_characterization {A : Mat} (h : ValidInput A) :
    invert (toCells A) = .error .singularMatrix ↔
      ∃ k, k < A.length ∧ ∃ aug,
        gjCols A.length (buildAug A) (List.range' 0 k) = .ok aug ∧
        ∀ i, k ≤ i → i < A.length → |entry aug i k| < pivotEps := by
  rw [invert_singular_iff h, gjRun, List.range_eq_range',
    gjCols_error_iff A.length A.length 0 (buildAug A) .singularMatrix]
  constructor
  · rintro ⟨j, hj, a, hpre, hstep⟩
    rw [Nat.zero_add] at hstep
    obtain ⟨-, hpiv⟩ := (gjStep_error_iff A.length a j .singularMatrix).mp hstep
    obtain ⟨-, -, hmax, -⟩ := pivotRow_spec a (show j < A.length from hj)
    exact ⟨j, hj, a, hpre, fun i h1 h2 => lt_of_le_of_lt (hmax i h1 h2) hpiv⟩
  · rintro ⟨k, hk, aug, hpre, hall⟩
    refine ⟨k, hk, aug, hpre, ?_⟩
    rw [Nat.zero_add, gjStep_error_iff]
    obtain ⟨hkp, hpn, -, -⟩ := pivotRow_spec aug (show k < A.length from hk)
    exact ⟨rfl, hall _ hkp hpn⟩

lemma ensure_some (v : ℤ) :
    ensure_valid_size (some v) =
      if v < MIN_MATRIX_SIZE then MIN_MATRIX_SIZE
      else if MAX_MATRIX_SIZE < v then MAX_MATRIX_SIZE
      else v := rfl

/-! ## Claim theorems -/

/-- C1: for every valid, non-singular square matrix `A` with `n ∈ [2,5]`
(success of `invert` on `A` is exactly validity plus non-singularity, since
validation enforces the size bound), composing the Verifier with the Inverter
as `Multiply(A, Invert(A))` yields a matrix that `IsCloseToIdentity` accepts
at tolerance `1e-9` — the round-trip identity oracle. -/
theorem roundtrip_identity_oracle (A B : Mat) (h : invert (toCells A) = .ok B) :
    ∃ C, multiply A B = .ok C ∧ isCloseToIdentity C (1 / 10 ^ 9) = true :=
  invert_ok_roundtrip h

/-- Witness for C1 at the concrete input `A = [[4,7],[2,6]]`, whose computed
inverse is `[[3/5,-7/10],[-1/5,2/5]]`. -/
theorem roundtrip_identity_oracle_witness :
    ∃ C, multiply [[4, 7], [2, 6]] [[3/5, -7/10], [-1/5, 2/5]] = .ok C ∧
      isCloseToIdentity C (1 / 10 ^ 9) = true :=
  roundtrip_identity_oracle [[4, 7], [2, 6]] [[3/5, -7/10], [-1/5, 2/5]] (by decide)

/-- C2: on structurally valid input, `invert` fails with a singular-matrix
error exactly when at some pivot column `k` every candidate row's column-`k`
entry (hence in particular the maximum absolute value among them) is below
the absolute threshold `1e-12`; in particular `Invert([[1,2],[1,2]])` fails
with a singular-matrix error, and on failure no inverse is returned. -/
theorem singularity_detection (A : Mat) (h : ValidInput A) :
    (invert (toCells A) = .error .singularMatrix ↔
      ∃ k, k < A.length ∧ ∃ aug,
        gjCols A.length (buildAug A) (List.range' 0 k) = .ok aug ∧
        ∀ i, k ≤ i → i < A.length → |entry aug i k| < pivotEps) ∧
    invert (toCells [[1, 2], [1, 2]]) = .error .singularMatrix ∧
    (∀ (a : List (List Cell)) (e : InvError) (B : Mat),
      invert a = .error e → invert a ≠ .ok B) := by
  refine ⟨singular_characterization h, by decide, ?_⟩
  intro a e B he hok
  rw [he] at hok
  exact Except.noConfusion hok

/-- Witness for C2: the concrete singular input `[[1,2],[1,2]]`. -/
theorem singularity_detection_witness :
    invert (toCells [[1, 2], [1, 2]]) = .error .singularMatrix :=
  (singularity_detection [[1, 2], [1, 2]] (by decide)).2.1

/-- C3: structural validation precedes all numerical work and identifies the
first failing check: `Invert([])` fails with an empty-input error, the 3×2
input `[[1,2],[3,4],[5,6]]` fails with a non-square error, and an input with
the non-numeric entry `"x"` fails with a non-numeric-entry error (the error
value is returned directly, so no elimination is attempted). -/
theorem structural_validation :
    invert [] = .error .emptyInput ∧
    invert (toCells [[1, 2], [3, 4], [5, 6]]) = .error .nonSquare ∧
    invert [[Cell.num 1, Cell.text "x"], [Cell.num 2, Cell.num 3]] =
      .error .nonNumericEntry :=
  ⟨by decide, by decide, by decide⟩

/-- C4: `Invert([[4,7],[2,6]])` returns `[[0.6,-0.7],[-0.2,0.4]]` with every
entry within `1e-9` (over exact rational arithmetic the computed entries
`[[3/5,-7/10],[-1/5,2/5]]` equal the expected decimals exactly). -/
theorem boundary_size_two :
    invert (toCells [[4, 7], [2, 6]]) = .ok [[3/5, -7/10], [-1/5, 2/5]] ∧
    |(3/5 : ℚ) - 0.6| ≤ 1 / 10 ^ 9 ∧ |(-7/10 : ℚ) - (-0.7)| ≤ 1 / 10 ^ 9 ∧
    |(-1/5 : ℚ) - (-0.2)| ≤ 1 / 10 ^ 9 ∧ |(2/5 : ℚ) - 0.4| ≤ 1 / 10 ^ 9 :=
  ⟨by decide, by decide, by decide, by decide, by decide⟩

/-- C6: `invert` is a pure function, hence deterministic (two calls on the
same input give identical results), and the pivot search breaks ties by the
first (lowest) row index achieving the maximum absolute value: every earlier
candidate row is strictly below the selected pivot's absolute value. -/
theorem determinism_and_first_max_tiebreak :
    (∀ a : List (List Cell), invert a = invert a) ∧
    ∀ (m : Mat) (k n : Nat), k < n →
      (k ≤ pivotRow m k n ∧ pivotRow m k n < n) ∧
      (∀ i, k ≤ i → i < n → |entry m i k| ≤ |entry m (pivotRow m k n) k|) ∧
      (∀ i, k ≤ i → i < pivotRow m k n →
        |entry m i k| < |entry m (pivotRow m k n) k|) := by
  refine ⟨fun a => rfl, ?_⟩
  intro m k n hk
  obtain ⟨h1, h2, h3, h4⟩ := pivotRow_spec m hk
  exact ⟨⟨h1, h2⟩, h3, h4⟩

/-- Witness for C6 at the tied column `[[1,2],[1,2]]`, pivot column `0`. -/
theorem determinism_and_first_max_tiebreak_witness :
    (invert (toCells [[0, 1], [1, 0]]) = invert (toCells [[0, 1], [1, 0]])) ∧
    (0 ≤ pivotRow [[1, 2], [1, 2]] 0 2 ∧ pivotRow [[1, 2], [1, 2]] 0 2 < 2) ∧
    (∀ i, 0 ≤ i → i < 2 →
      |entry [[1, 2], [1, 2]] i 0| ≤ |entry [[1, 2], [1, 2]] (pivotRow [[1, 2], [1, 2]] 0 2) 0|) ∧
    (∀ i, 0 ≤ i → i < pivotRow [[1, 2], [1, 2]] 0 2 →
      |entry [[1, 2], [1, 2]] i 0| < |entry [[1, 2], [1, 2]] (pivotRow [[1, 2], [1, 2]] 0 2) 0|) :=
  ⟨determinism_and_first_max_tiebreak.1 _,
   determinism_and_first_max_tiebreak.2 [[1, 2], [1, 2]] 0 2 (by decide)⟩

/-- C7: for every non-empty string `s`, `_validate_size(s)` returns `True`
iff `s` parses as an integer `v` with `2 ≤ v ≤ 5`; non-integer strings and
out-of-range integers are rejected. -/
theorem validate_size_accepts_iff (s : String) (h : s ≠ "") :
    validate_size s = true ↔ ∃ v : ℤ, pyInt? s = some v ∧ 2 ≤ v ∧ v ≤ 5 := by
  rw [validate_size, if_neg h]
  cases hp : pyInt? s with
  | none =>
    constructor
    · intro hc
      exact Bool.noConfusion hc
    · rintro ⟨v, hv, -⟩
      exact Option.noConfusion hv
  | some v =>
    constructor
    · intro hc
      exact ⟨v, rfl, (of_decide_eq_true hc).1, (of_decide_eq_true hc).2⟩
    · rintro ⟨w, hw, h2, h5⟩
      have hvw : v = w := Option.some.inj hw
      subst hvw
      exact decide_eq_true ⟨h2, h5⟩

/-- Witness for C7 at the in-range string `"3"`. -/
theorem validate_size_accepts_iff_witness :
    validate_size "3" = true ↔ ∃ v : ℤ, pyInt? "3" = some v ∧ 2 ≤ v ∧ v ≤ 5 :=
  validate_size_accepts_iff "3" (by decide)

/-- C8: `_ensure_valid_size` clamps a readable integer size into `[2,5]` —
below-minimum values become `2`, above-maximum values become `5`, in-range
values are unchanged — and afterwards the stored size always lies in
`[2,5]`. -/
theorem ensure_valid_size_clamps :
    (∀ v : ℤ, v < 2 → ensure_valid_size (some v) = 2) ∧
    (∀ v : ℤ, 5 < v → ensure_valid_size (some v) = 5) ∧
    (∀ v : ℤ, 2 ≤ v → v ≤ 5 → ensure_valid_size (some v) = v) ∧
    (∀ st : Option ℤ, 2 ≤ ensure_valid_size st ∧ ensure_valid_size st ≤ 5) := by
  refine ⟨?_, ?_, ?_, ?_⟩
  · intro v hv
    rw [ensure_some]
    simp only [MIN_MATRIX_SIZE, MAX_MATRIX_SIZE]
    split_ifs
    all_goals omega
  · intro v hv
    rw [ensure_some]
    simp only [MIN_MATRIX_SIZE, MAX_MATRIX_SIZE]
    split_ifs
    all_goals omega
  · intro v h2 h5
    rw [ensure_some]
    simp only [MIN_MATRIX_SIZE, MAX_MATRIX_SIZE]
    split_ifs
    all_goals omega
  · intro st
    cases st with
    | none =>
      exact ⟨by decide, by decide⟩
    | some v =>
      rw [ensure_some]
      simp only [MIN_MATRIX_SIZE, MAX_MATRIX_SIZE]
      split_ifs
      all_goals omega

/-- Witness for C8 at the concrete sizes 1 (clamped up), 10 (clamped down),
3 (unchanged), and 7 (in range after the call). -/
theorem ensure_valid_size_clamps_witness :
    ensure_valid_size (some 1) = 2 ∧ ensure_valid_size (some 10) = 5 ∧
    ensure_valid_size (some 3) = 3 ∧
    (2 ≤ ensure_valid_size (some 7) ∧ ensure_valid_size (some 7) ≤ 5) :=
  ⟨ensure_valid_size_clamps.1 1 (by decide),
   ensure_valid_size_clamps.2.1 10 (by decide),
   ensure_valid_size_clamps.2.2.1 3 (by decide) (by decide),
   ensure_valid_size_clamps.2.2.2 (some 7)⟩

/-- C9: `_validate_size("")` returns `True` — the size field may transiently
hold no value during editing, even though the empty string does not parse as
an integer in `[2,5]`. -/
theorem validate_size_accepts_empty :
    validate_size "" = true ∧ pyInt? "" = none := ⟨rfl, rfl⟩

/-- C10: when the stored size cannot be read as an integer (`IntVar.get()`
raises `tk.TclError`, modelled as the `none` state), `_ensure_valid_size`
resets the size to the default `3` rather than clamping to a bound. -/
theorem ensure_valid_size_resets_to_default :
    ensure_valid_size none = 3 ∧ DEFAULT_MATRIX_SIZE = 3 := ⟨rfl, rfl⟩

end CalApp
